import Mathlib

/- Verification of the scaling (chained) Bloom filter data type
   (src/types/redis_bloom_chain.cc).

   The chain operations (Reserve, MAdd, MExists, Info and their helpers) are
   translated from the source file.  Collaborators that live outside the
   sources under verification — the block-split Bloom filter primitive, the
   metadata header (GetCapacity, IsScaling, the default reservation
   parameters), the fixed-width integer encoding helpers and the internal-key
   encoding — are modelled from the specification; each such definition is
   marked `Modelled from the spec:`.

   Machine integers are modelled as unbounded naturals.  The source's
   overflow paths (the uint32 capacity formula, uint16 filter counts) pass
   through double-precision casts whose out-of-range behaviour is undefined
   in C++, so no wrapping semantics is ascribed to them; within the
   defined-behaviour envelope the two readings agree.  The IEEE double
   `error_rate` is carried as a rational stand-in: no claim depends on its
   arithmetic, only on its identity as an argument to the sizing function. -/

/-- Modelled from the spec: the eight 32-bit odd salt constants of the
block-split Bloom filter (§4.1); the filter implementation
(`types/bloom_filter.h`) is outside the sources under verification. -/
def bloomSalt : List Nat :=
  [0x47b6137b, 0x44974d91, 0x8824ad5b, 0xa2b7289d,
   0x705495c7, 0x2df1424b, 0x9efc4947, 0x5c6bfb31]

/-- Modelled from the spec: block selection
`block_index = ((h >> 32) * num_blocks) >> 32` (§4.1). -/
def blockIndex (h numBlocks : Nat) : Nat :=
  h / 2 ^ 32 * numBlocks / 2 ^ 32

/-- Modelled from the spec: bit derivation
`bit = (lower32(h) * SALT[w]) >> 27`, a value in `[0, 32)` (§4.1). -/
def bitPos (h salt : Nat) : Nat :=
  h % 2 ^ 32 * salt % 2 ^ 32 / 2 ^ 27

/-- A filter blob is its byte buffer; bit `b` of little-endian 32-bit word
`w` of block `bi` lives in byte `32*bi + 4*w + b/8` at bit `b % 8`. -/
def setBitInBlob (bf : List Nat) (byteIdx bit : Nat) : List Nat :=
  bf.set byteIdx (bf.getD byteIdx 0 ||| 2 ^ bit)

/-- Byte position of the `w`-th salted bit of the block selected for hash
`h` in a blob of `len` bytes. -/
def saltedBytePos (len h w : Nat) : Nat :=
  32 * blockIndex h (len / 32) + 4 * w + bitPos h (bloomSalt.getD w 0) / 8

/-- Modelled from the spec: `BlockSplitBloomFilter::InsertHash` — set the
eight salted bits of the selected 32-byte block (§4.1). -/
def insertHash (bf : List Nat) (h : Nat) : List Nat :=
  (List.range 8).foldl
    (fun acc w =>
      setBitInBlob acc (saltedBytePos bf.length h w) (bitPos h (bloomSalt.getD w 0) % 8))
    bf

/-- Modelled from the spec: `BlockSplitBloomFilter::FindHash` — a probe
reports present only if all eight salted bits are set (§4.1). -/
def findHash (bf : List Nat) (h : Nat) : Bool :=
  (List.range 8).all
    (fun w =>
      Nat.testBit (bf.getD (saltedBytePos bf.length h w) 0)
        (bitPos h (bloomSalt.getD w 0) % 8))

/-- The probe loop of `MAdd`/`MExists`: newest to oldest across the blob
list, short-circuiting on the first hit. -/
def chainCheck (bfs : List (List Nat)) (h : Nat) : Bool :=
  bfs.reverse.any (fun bf => findHash bf h)

/-- The chain metadata record (`BloomChainMetadata`); only the fields unique
to this data type are modelled, plus the generation `version` used by the
internal keys. -/
structure BloomChainMetadata where
  version : Nat
  error_rate : ℚ
  base_capacity : Nat
  expansion : Nat
  n_filters : Nat
  size : Nat
  bloom_bytes : Nat
deriving DecidableEq, Repr

/-- Modelled from the spec: `BloomChainMetadata::GetCapacity`, the sum of
`base_capacity * expansion^i` over the existing filter indices (§3); the
implementation lives in the metadata code outside the sources under
verification. -/
def BloomChainMetadata.getCapacity (m : BloomChainMetadata) : Nat :=
  ((List.range m.n_filters).map (fun i => m.base_capacity * m.expansion ^ i)).sum

/-- Modelled from the spec: `BloomChainMetadata::IsScaling` — expansion `0`
means "no scaling" (§3). -/
def BloomChainMetadata.isScaling (m : BloomChainMetadata) : Prop :=
  m.expansion ≠ 0

instance (m : BloomChainMetadata) : Decidable m.isScaling := by
  unfold BloomChainMetadata.isScaling; infer_instance

/-- Modelled from the spec: the default reservation parameters
`error_rate = 0.01`, `base_capacity = 100`, `expansion = 2` (§6), declared
in `redis_bloom_chain.h` outside the sources under verification. -/
def kBFDefaultErrorRate : ℚ := 1 / 100

/-- Modelled from the spec: default initial capacity (§6). -/
def kBFDefaultInitCapacity : Nat := 100

/-- Modelled from the spec: default expansion factor (§6). -/
def kBFDefaultExpansion : Nat := 2

/-- Modelled from the spec: `PutFixed16`, the big-endian two-byte encoding
of a 16-bit value (§4.3); the encoding helpers are outside the sources
under verification. -/
def u16be (i : Nat) : List Nat := [i / 256 % 256, i % 256]

/-- Modelled from the spec: the canonical internal key combining
`(ns_key, sub_key, version)` plus the slot-encoding flag (§4.3).  The
encoding is injective, so the key is modelled by the tuple itself. -/
structure InternalKey where
  ns_key : String
  sub_key : List Nat
  version : Nat
  slot_encoded : Bool
deriving DecidableEq, Repr

/-- `BloomChain::getBFKey`: the blob key of filter index `i`.  The index is
a `uint16_t` in the source; its exact base-256 big-endian digits are used
here, which agree with the two-byte `PutFixed16` encoding on the whole
`uint16_t` range. -/
def getBFKey (slot : Bool) (ns : String) (ver i : Nat) : InternalKey :=
  ⟨ns, [i / 256, i % 256], ver, slot⟩

/-- `BloomChain::getBFKeyList`: blob keys for indices `0 .. n_filters - 1`. -/
def bfKeyList (slot : Bool) (ns : String) (m : BloomChainMetadata) : List InternalKey :=
  (List.range m.n_filters).map (getBFKey slot ns m.version)

/-- The environment of the chain operations: the sizing function
`BlockSplitBloomFilter::OptimalNumOfBytes` (implemented outside the sources
under verification, kept as an unspecified parameter of the model) and the
engine's slot-id-encoding flag. -/
structure Env where
  onob : Nat → ℚ → Nat
  slot : Bool

/-- An entry staged into a write batch: a log-data record, a metadata put
(metadata column family), or a blob put. -/
inductive BatchOp where
  | putLogData (tokens : List String)
  | putMeta (ns : String) (m : BloomChainMetadata)
  | putBlob (key : InternalKey) (data : List Nat)
deriving DecidableEq, Repr

/-- The stored state visible to this component: the metadata column family
and the blob keyspace. -/
structure KVStore where
  meta : String → Option BloomChainMetadata
  blobs : InternalKey → Option (List Nat)

/-- Apply one batch entry to the store; log data touches no key. -/
def applyOp (st : KVStore) (op : BatchOp) : KVStore :=
  match op with
  | .putLogData _ => st
  | .putMeta ns m => ⟨fun n => if n = ns then some m else st.meta n, st.blobs⟩
  | .putBlob k d => ⟨st.meta, fun k' => if k' = k then some d else st.blobs k'⟩

/-- Commit a write batch: all of its entries are applied, in order. -/
def commitBatch (st : KVStore) (ops : List BatchOp) : KVStore :=
  ops.foldl applyOp st

/-- `Database::GetMetadata` for this data type. -/
def lookupMeta (st : KVStore) (ns : String) : Option BloomChainMetadata :=
  st.meta ns

/-- `BloomChain::getBFDataList`: snapshot-read every blob in key order; any
missing blob fails the whole read. -/
def readBlobs (st : KVStore) : List InternalKey → Option (List (List Nat))
  | [] => some []
  | k :: ks =>
    match st.blobs k, readBlobs st ks with
    | some d, some ds => some (d :: ds)
    | _, _ => none

/-- The statuses produced on the modelled paths. -/
inductive OpStatus where
  | ok
  | notFound
  | invalidArgument (msg : String)
deriving DecidableEq, Repr

/-- The per-item result of an add (`BloomFilterAddResult`). -/
inductive AddResult where
  | ok
  | exist
  | full
deriving DecidableEq, Repr

/-- `BloomChain::createBloomChain`: build the one-filter chain metadata and
the creation batch (log data, metadata put, zero blob put). -/
def createBloomChainBatch (env : Env) (ns : String) (er : ℚ) (cap : Nat)
    (expa : Nat) (ver : Nat) : BloomChainMetadata × List BatchOp :=
  let nbytes := env.onob cap er
  let m : BloomChainMetadata := ⟨ver, er, cap, expa, 1, 0, nbytes⟩
  (m, [.putLogData ["createBloomChain"], .putMeta ns m,
       .putBlob (getBFKey env.slot ns ver (m.n_filters - 1)) (List.replicate nbytes 0)])

/-- `BloomChain::Reserve`: reject an existing key, otherwise create the
chain and commit the creation batch.  The source performs no validation of
`capacity` or `error_rate`. -/
def reserveOp (env : Env) (st : KVStore) (ns : String) (cap : Nat) (er : ℚ)
    (expa : Nat) (ver : Nat) : OpStatus × KVStore × List (List BatchOp) :=
  match lookupMeta st ns with
  | some _ => (.invalidArgument "the key already exists", st, [])
  | none =>
    let c := createBloomChainBatch env ns er cap expa ver
    (.ok, commitBatch st c.2, [c.2])

/-- The in-memory state threaded through the `MAdd` item loop: the working
metadata, `bf_data_list`, `bf_key_list` and the batch entries staged so
far. -/
structure LoopState where
  md : BloomChainMetadata
  bfs : List (List Nat)
  keys : List InternalKey
  batch : List BatchOp
deriving DecidableEq, Repr

/-- Placeholder key for the (unreachable) `back()` of an empty key list. -/
def dummyBFKey : InternalKey := ⟨"", [], 0, false⟩

/-- Replace the last buffer of the working blob list (`bf_data_list.back()`
is mutated in place by the source). -/
def setLast (l : List (List Nat)) (f : List Nat → List Nat) : List (List Nat) :=
  l.dropLast ++ [f (l.getLastD [])]

/-- `BloomChain::createBloomFilterInBatch`: size the new filter from the
pre-append `n_filters`, bump `n_filters`, grow `bloom_bytes`, build the
zero blob, and stage the updated metadata.  Returns the updated metadata,
the new blob and the staged metadata entry. -/
def createBloomFilterInBatch (env : Env) (ns : String) (m : BloomChainMetadata) :
    BloomChainMetadata × List Nat × BatchOp :=
  let nbytes := env.onob (m.base_capacity * m.expansion ^ m.n_filters) m.error_rate
  let m1 := { m with n_filters := m.n_filters + 1,
                     bloom_bytes := m.bloom_bytes + nbytes }
  (m1, List.replicate nbytes 0, .putMeta ns m1)

/-- One iteration of the `MAdd` item loop: probe the chain; on a miss at
capacity either refuse (non-scaling) or stage the previously newest blob
and append a fresh filter via `createBloomFilterInBatch`; then insert into
the newest filter and advance `size`. -/
def mAddStep (env : Env) (ns : String) (st : LoopState) (h : Nat) :
    LoopState × AddResult :=
  if chainCheck st.bfs h then (st, .exist)
  else if st.md.size + 1 > st.md.getCapacity then
    if st.md.isScaling then
      let c := createBloomFilterInBatch env ns st.md
      let md1 := c.1
      let batch1 := st.batch ++
        [.putBlob (st.keys.getLastD dummyBFKey) (st.bfs.getLastD []), c.2.2]
      let bfs1 := st.bfs ++ [c.2.1]
      let keys1 := st.keys ++ [getBFKey env.slot ns md1.version (md1.n_filters - 1)]
      ({ md := { md1 with size := md1.size + 1 },
         bfs := setLast bfs1 (fun b => insertHash b h),
         keys := keys1, batch := batch1 }, .ok)
    else (st, .full)
  else
    ({ st with md := { st.md with size := st.md.size + 1 },
               bfs := setLast st.bfs (fun b => insertHash b h) }, .ok)

/-- The whole `MAdd` item loop, returning the final working state and the
per-item results in input order. -/
def mAddLoop (env : Env) (ns : String) (st : LoopState) : List Nat → LoopState × List AddResult
  | [] => (st, [])
  | h :: hs =>
    let s1 := mAddStep env ns st h
    let s2 := mAddLoop env ns s1.1 hs
    (s2.1, s1.2 :: s2.2)

/-- `BloomChain::MAdd` over item hashes: read (or default-create and commit)
the metadata, snapshot-read the blobs, run the item loop, then stage the
final metadata and newest blob when `size` changed, and commit the batch —
the batch, opened with the `"insert"` log record before the loop, is
committed unconditionally.  Returns the status, the per-item results, the
final store and the list of committed batches. -/
def mAddOp (env : Env) (ver : Nat) (st : KVStore) (ns : String) (hs : List Nat) :
    OpStatus × List AddResult × KVStore × List (List BatchOp) :=
  let created :=
    match lookupMeta st ns with
    | some m => (m, st, ([] : List (List BatchOp)))
    | none =>
      let c := createBloomChainBatch env ns kBFDefaultErrorRate kBFDefaultInitCapacity
        kBFDefaultExpansion ver
      (c.1, commitBatch st c.2, [c.2])
  let m := created.1
  let st1 := created.2.1
  let commits1 := created.2.2
  let keys := bfKeyList env.slot ns m
  match readBlobs st1 keys with
  | none => (.notFound, [], st1, commits1)
  | some bfs =>
    let r := mAddLoop env ns ⟨m, bfs, keys, []⟩ hs
    let stF := r.1
    let finalOps := if stF.md.size ≠ m.size
      then [BatchOp.putMeta ns stF.md,
            BatchOp.putBlob (stF.keys.getLastD dummyBFKey) (stF.bfs.getLastD [])]
      else []
    let mainBatch := BatchOp.putLogData ["insert"] :: (stF.batch ++ finalOps)
    (.ok, r.2, commitBatch st1 mainBatch, commits1 ++ [mainBatch])

/-- One bounds-checked positional store `(*out)[i] = x` into a C++ vector:
out of range is out of bounds. -/
def vecSet (v : List α) (i : Nat) (x : α) : Option (List α) :=
  if i < v.length then some (v.set i x) else none

/-- Sequential positional stores `(*out)[i] = xs[i - i0]` for `i` from `i0`,
as performed by the item loops on the caller-supplied result vector; `none`
means some store was out of bounds. -/
def storeResults : List α → Nat → List α → Option (List α)
  | v, _, [] => some v
  | v, i, x :: xs =>
    match vecSet v i x with
    | none => none
    | some v' => storeResults v' (i + 1) xs

/-- `BloomChain::MExists` over item hashes: a missing key fills the
caller's vector with `false` and succeeds; otherwise snapshot-read the
blobs and probe each item, storing results by position.  No batch is ever
committed. -/
def mExistsOp (env : Env) (st : KVStore) (ns : String) (hs : List Nat)
    (out0 : List Bool) : OpStatus × Option (List Bool) × List (List BatchOp) :=
  match lookupMeta st ns with
  | none => (.ok, some (List.replicate out0.length false), [])
  | some m =>
    let keys := bfKeyList env.slot ns m
    match readBlobs st keys with
    | none => (.notFound, some out0, [])
    | some bfs => (.ok, storeResults out0 0 (hs.map (chainCheck bfs)), [])

/-- The positional writes `(*rets)[i] = ...` performed by `MAdd` on the
caller-supplied result vector. -/
def mAddOpVec (env : Env) (ver : Nat) (st : KVStore) (ns : String)
    (hs : List Nat) (out0 : List AddResult) : Option (List AddResult) :=
  storeResults out0 0 (mAddOp env ver st ns hs).2.1

/-- Which sub-tree of the store an entry can touch. -/
def opTouchesOnly (ns : String) : BatchOp → Prop
  | .putLogData _ => True
  | .putMeta n _ => n = ns
  | .putBlob k _ => k.ns_key = ns

theorem setBitInBlob_length (bf : List Nat) (i b : Nat) :
    (setBitInBlob bf i b).length = bf.length := by
  simp [setBitInBlob]

theorem length_foldl_setBit (ws : List Nat) (p q : Nat → Nat) (bf : List Nat) :
    (ws.foldl (fun acc w => setBitInBlob acc (p w) (q w)) bf).length = bf.length := by
  induction ws generalizing bf with
  | nil => rfl
  | cons w ws ih => rw [List.foldl_cons, ih, setBitInBlob_length]

theorem insertHash_length (bf : List Nat) (h : Nat) :
    (insertHash bf h).length = bf.length :=
  length_foldl_setBit _ _ _ _

theorem getLastD_append_single (l : List α) (a d : α) : (l ++ [a]).getLastD d = a := by
  simp [List.getLastD_eq_getLast?, List.getLast?_concat]

theorem getLastD_eq_getD (l : List α) (hl : l ≠ []) (d : α) :
    l.getLastD d = l.getD (l.length - 1) d := by
  obtain ⟨l', a, rfl⟩ := (List.eq_nil_or_concat l).resolve_left hl
  simp only [List.concat_eq_append]
  have hlen : (l' ++ [a]).length - 1 = l'.length := by simp
  rw [getLastD_append_single, hlen, List.getD_append_right _ _ _ _ (le_refl _)]
  simp [List.getD]

theorem setLast_length (l : List (List Nat)) (hl : l ≠ []) (f : List Nat → List Nat) :
    (setLast l f).length = l.length := by
  obtain ⟨l', a, rfl⟩ := (List.eq_nil_or_concat l).resolve_left hl
  simp [setLast, List.dropLast_concat]

theorem dropLast_setLast (l : List (List Nat)) (f : List Nat → List Nat) :
    (setLast l f).dropLast = l.dropLast := by
  simp [setLast, List.dropLast_concat]

theorem getLastD_setLast (l : List (List Nat)) (f : List Nat → List Nat) (d : List Nat) :
    (setLast l f).getLastD d = f (l.getLastD []) := by
  simp [setLast, getLastD_append_single]

theorem getD_setLast_of_lt (l : List (List Nat)) (f : List Nat → List Nat) (i : Nat)
    (d : List Nat) (hi : i + 1 < l.length) : (setLast l f).getD i d = l.getD i d := by
  obtain ⟨l', a, rfl⟩ := (List.eq_nil_or_concat l).resolve_left (by rintro rfl; simp at hi)
  simp only [List.concat_eq_append] at hi ⊢
  have hi' : i < l'.length := by simp at hi; omega
  rw [setLast, List.dropLast_concat, List.getD_append _ _ _ _ hi', List.getD_append _ _ _ _ hi']

theorem sum_lengths_setLast (l : List (List Nat)) (hl : l ≠ []) (f : List Nat → List Nat)
    (hf : ∀ b, (f b).length = b.length) :
    ((setLast l f).map List.length).sum = (l.map List.length).sum := by
  obtain ⟨l', a, rfl⟩ := (List.eq_nil_or_concat l).resolve_left hl
  simp [setLast, List.dropLast_concat, getLastD_append_single, hf]

theorem mAddStep_exist (env : Env) (ns : String) (st : LoopState) (h : Nat)
    (hc : chainCheck st.bfs h = true) : mAddStep env ns st h = (st, .exist) := by
  simp [mAddStep, hc]

theorem mAddStep_full (env : Env) (ns : String) (st : LoopState) (h : Nat)
    (hc : chainCheck st.bfs h = false) (hcap : st.md.size + 1 > st.md.getCapacity)
    (hexp : st.md.expansion = 0) : mAddStep env ns st h = (st, .full) := by
  simp [mAddStep, hc, hcap, BloomChainMetadata.isScaling, hexp]

theorem mAddStep_grow (env : Env) (ns : String) (st : LoopState) (h : Nat)
    (hc : chainCheck st.bfs h = false) (hcap : st.md.size + 1 > st.md.getCapacity)
    (hexp : st.md.expansion ≠ 0) :
    mAddStep env ns st h =
      ({ md := { (createBloomFilterInBatch env ns st.md).1 with size := st.md.size + 1 },
         bfs := setLast (st.bfs ++ [(createBloomFilterInBatch env ns st.md).2.1])
           (fun b => insertHash b h),
         keys := st.keys ++ [getBFKey env.slot ns st.md.version st.md.n_filters],
         batch := st.batch ++
           [.putBlob (st.keys.getLastD dummyBFKey) (st.bfs.getLastD []),
            (createBloomFilterInBatch env ns st.md).2.2] },
       .ok) := by
  simp [mAddStep, hc, hcap, BloomChainMetadata.isScaling, hexp, createBloomFilterInBatch]

theorem mAddStep_insert (env : Env) (ns : String) (st : LoopState) (h : Nat)
    (hc : chainCheck st.bfs h = false) (hcap : ¬ st.md.size + 1 > st.md.getCapacity) :
    mAddStep env ns st h =
      ({ st with md := { st.md with size := st.md.size + 1 },
                 bfs := setLast st.bfs (fun b => insertHash b h) }, .ok) := by
  simp [mAddStep, hc, hcap]

theorem mAddStep_state_of_exist (env : Env) (ns : String) (st : LoopState) (h : Nat)
    (hr : (mAddStep env ns st h).2 = .exist) : (mAddStep env ns st h).1 = st := by
  by_cases hc : chainCheck st.bfs h = true
  · rw [mAddStep_exist env ns st h hc]
  · rw [Bool.not_eq_true] at hc
    by_cases hcap : st.md.size + 1 > st.md.getCapacity
    · by_cases hexp : st.md.expansion = 0
      · rw [mAddStep_full env ns st h hc hcap hexp]
      · rw [mAddStep_grow env ns st h hc hcap hexp] at hr
        exact absurd hr (by simp)
    · rw [mAddStep_insert env ns st h hc hcap] at hr
      exact absurd hr (by simp)

theorem mAddLoop_length (env : Env) (ns : String) (st : LoopState) (hs : List Nat) :
    (mAddLoop env ns st hs).2.length = hs.length := by
  induction hs generalizing st with
  | nil => rfl
  | cons h hs ih => simp [mAddLoop, ih]

/-- The working state just before item `i` of the loop is processed. -/
def loopStateAt (env : Env) (ns : String) (st : LoopState) (hs : List Nat) (i : Nat) :
    LoopState :=
  (mAddLoop env ns st (hs.take i)).1

theorem loopStateAt_zero (env : Env) (ns : String) (st : LoopState) (hs : List Nat) :
    loopStateAt env ns st hs 0 = st := rfl

theorem loopStateAt_succ (env : Env) (ns : String) (st : LoopState) (hs : List Nat)
    (i : Nat) (hi : i < hs.length) :
    loopStateAt env ns st hs (i + 1) =
      (mAddStep env ns (loopStateAt env ns st hs i) (hs.getD i 0)).1 := by
  induction hs generalizing st i with
  | nil => cases hi
  | cons h hs ih =>
    cases i with
    | zero => simp [loopStateAt, mAddLoop]
    | succ n =>
      have hn : n < hs.length := by simpa using hi
      simp only [loopStateAt, List.take_succ_cons, mAddLoop, List.getD_cons_succ]
      exact ih (mAddStep env ns st h).1 n hn

theorem mAddLoop_result_getD (env : Env) (ns : String) (st : LoopState) (hs : List Nat)
    (i : Nat) (hi : i < hs.length) (d : AddResult) :
    (mAddLoop env ns st hs).2.getD i d =
      (mAddStep env ns (loopStateAt env ns st hs i) (hs.getD i 0)).2 := by
  induction hs generalizing st i with
  | nil => cases hi
  | cons h hs ih =>
    cases i with
    | zero => simp [mAddLoop, loopStateAt]
    | succ n =>
      have hn : n < hs.length := by simpa using hi
      simp only [mAddLoop, List.getD_cons_succ]
      rw [ih (mAddStep env ns st h).1 n hn]
      have hstate : loopStateAt env ns st (h :: hs) (n + 1) =
          loopStateAt env ns (mAddStep env ns st h).1 hs n := by
        simp only [loopStateAt, List.take_succ_cons, mAddLoop]
      rw [hstate]

theorem mAddLoop_state_all_exist (env : Env) (ns : String) (st : LoopState)
    (hs : List Nat) (hall : ∀ r ∈ (mAddLoop env ns st hs).2, r = .exist) :
    (mAddLoop env ns st hs).1 = st := by
  induction hs generalizing st with
  | nil => rfl
  | cons h hs ih =>
    have h1 : (mAddStep env ns st h).2 = .exist := by
      exact hall _ (by simp [mAddLoop])
    have h2 : (mAddStep env ns st h).1 = st := mAddStep_state_of_exist env ns st h h1
    have := ih (mAddStep env ns st h).1 (fun r hr => hall r (by simp [mAddLoop, hr]))
    simp only [mAddLoop]
    rw [this, h2]

theorem readBlobs_length (st : KVStore) (ks : List InternalKey)
    (bs : List (List Nat)) (hr : readBlobs st ks = some bs) : bs.length = ks.length := by
  induction ks generalizing bs with
  | nil => simp [readBlobs] at hr; simp [← hr]
  | cons k ks ih =>
    simp only [readBlobs] at hr
    cases hk : st.blobs k with
    | none => rw [hk] at hr; cases hr
    | some d =>
      rw [hk] at hr
      cases hks : readBlobs st ks with
      | none => rw [hks] at hr; cases hr
      | some ds =>
        rw [hks] at hr
        cases hr
        simp [ih ds hks]

theorem readBlobs_getD (st : KVStore) (ks : List InternalKey) (bs : List (List Nat))
    (hr : readBlobs st ks = some bs) (i : Nat) (hi : i < ks.length) :
    st.blobs (ks.getD i dummyBFKey) = some (bs.getD i []) := by
  induction ks generalizing bs i with
  | nil => cases hi
  | cons k ks ih =>
    simp only [readBlobs] at hr
    cases hk : st.blobs k with
    | none => rw [hk] at hr; cases hr
    | some d =>
      rw [hk] at hr
      cases hks : readBlobs st ks with
      | none => rw [hks] at hr; cases hr
      | some ds =>
        rw [hks] at hr
        cases hr
        cases i with
        | zero => simpa using hk
        | succ n =>
          have hn : n < ks.length := by simpa using hi
          simpa using ih ds hks n hn

theorem readBlobs_of_getD (st : KVStore) (ks : List InternalKey) (bs : List (List Nat))
    (hlen : bs.length = ks.length)
    (hpt : ∀ i, i < ks.length → st.blobs (ks.getD i dummyBFKey) = some (bs.getD i [])) :
    readBlobs st ks = some bs := by
  induction ks generalizing bs with
  | nil => cases bs with
    | nil => rfl
    | cons b bs => cases hlen
  | cons k ks ih =>
    cases bs with
    | nil => cases hlen
    | cons b bs =>
      have h0 : st.blobs k = some b := by simpa using hpt 0 (by simp)
      have hrest : readBlobs st ks = some bs := by
        refine ih bs (by simpa using hlen) (fun i hi => ?_)
        simpa using hpt (i + 1) (by simpa using Nat.succ_lt_succ hi)
      simp [readBlobs, h0, hrest]

theorem readBlobs_congr (st st' : KVStore) (ks : List InternalKey)
    (hk : ∀ k ∈ ks, st'.blobs k = st.blobs k) :
    readBlobs st' ks = readBlobs st ks := by
  induction ks with
  | nil => rfl
  | cons k ks ih =>
    simp only [readBlobs]
    rw [hk k (by simp), ih (fun k' hk' => hk k' (by simp [hk']))]

theorem commitBatch_nil (st : KVStore) : commitBatch st [] = st := rfl

theorem commitBatch_cons (st : KVStore) (op : BatchOp) (ops : List BatchOp) :
    commitBatch st (op :: ops) = commitBatch (applyOp st op) ops := rfl

theorem commitBatch_append (st : KVStore) (a b : List BatchOp) :
    commitBatch st (a ++ b) = commitBatch (commitBatch st a) b := by
  simp [commitBatch, List.foldl_append]

theorem applyOp_logData (st : KVStore) (t : List String) :
    applyOp st (.putLogData t) = st := rfl

theorem applyOp_putMeta_meta (st : KVStore) (ns : String) (m : BloomChainMetadata)
    (n : String) : (applyOp st (.putMeta ns m)).meta n = if n = ns then some m else st.meta n := rfl

theorem applyOp_putMeta_blobs (st : KVStore) (ns : String) (m : BloomChainMetadata) :
    (applyOp st (.putMeta ns m)).blobs = st.blobs := rfl

theorem applyOp_putBlob_meta (st : KVStore) (k : InternalKey) (d : List Nat) :
    (applyOp st (.putBlob k d)).meta = st.meta := rfl

theorem applyOp_putBlob_blobs (st : KVStore) (k : InternalKey) (d : List Nat)
    (k' : InternalKey) :
    (applyOp st (.putBlob k d)).blobs k' = if k' = k then some d else st.blobs k' := rfl

theorem commitBatch_meta_frame (st : KVStore) (ops : List BatchOp) (ns : String)
    (hops : ∀ op ∈ ops, opTouchesOnly ns op) (n : String) (hn : n ≠ ns) :
    (commitBatch st ops).meta n = st.meta n := by
  induction ops generalizing st with
  | nil => rfl
  | cons op ops ih =>
    rw [commitBatch_cons, ih (applyOp st op) (fun o ho => hops o (by simp [ho]))]
    have h0 := hops op (by simp)
    cases op with
    | putLogData t => rfl
    | putMeta n' m =>
      simp only [opTouchesOnly] at h0
      rw [applyOp_putMeta_meta, if_neg (by rw [h0]; exact hn)]
    | putBlob k d => rfl

theorem commitBatch_blobs_frame (st : KVStore) (ops : List BatchOp) (ns : String)
    (hops : ∀ op ∈ ops, opTouchesOnly ns op) (k : InternalKey) (hk : k.ns_key ≠ ns) :
    (commitBatch st ops).blobs k = st.blobs k := by
  induction ops generalizing st with
  | nil => rfl
  | cons op ops ih =>
    rw [commitBatch_cons, ih (applyOp st op) (fun o ho => hops o (by simp [ho]))]
    have h0 := hops op (by simp)
    cases op with
    | putLogData t => rfl
    | putMeta n' m => rfl
    | putBlob k' d =>
      simp only [opTouchesOnly] at h0
      rw [applyOp_putBlob_blobs, if_neg]
      rintro rfl
      exact hk h0

theorem getBFKey_ns (slot : Bool) (ns : String) (ver i : Nat) :
    (getBFKey slot ns ver i).ns_key = ns := rfl

theorem getBFKey_inj (slot : Bool) (ns : String) (ver i j : Nat)
    (hij : getBFKey slot ns ver i = getBFKey slot ns ver j) : i = j := by
  have h1 : [i / 256, i % 256] = [j / 256, j % 256] := congrArg InternalKey.sub_key hij
  simp only [List.cons.injEq, and_true] at h1
  omega

theorem bfKeyList_length (slot : Bool) (ns : String) (m : BloomChainMetadata) :
    (bfKeyList slot ns m).length = m.n_filters := by
  simp [bfKeyList]

theorem bfKeyList_getD (slot : Bool) (ns : String) (m : BloomChainMetadata) (i : Nat)
    (hi : i < m.n_filters) :
    (bfKeyList slot ns m).getD i dummyBFKey = getBFKey slot ns m.version i := by
  rw [bfKeyList, List.getD_eq_getElem?_getD, List.getElem?_map, List.getElem?_range hi]
  rfl

theorem storeResults_isSome (v : List α) (i : Nat) (xs : List α)
    (hle : i + xs.length ≤ v.length) : (storeResults v i xs).isSome = true := by
  induction xs generalizing v i with
  | nil => rfl
  | cons x xs ih =>
    have hi : i < v.length := by simp at hle; omega
    simp only [storeResults, vecSet, if_pos hi]
    exact ih (v.set i x) (i + 1) (by simp at hle ⊢; omega)

theorem storeResults_none (v : List α) (i : Nat) (xs : List α)
    (hxs : xs ≠ []) (hgt : v.length < i + xs.length) : storeResults v i xs = none := by
  induction xs generalizing v i with
  | nil => exact absurd rfl hxs
  | cons x xs ih =>
    by_cases hi : i < v.length
    · cases xs with
      | nil => simp at hgt; omega
      | cons y ys =>
        simp only [storeResults, vecSet, if_pos hi]
        exact ih (v.set i x) (i + 1) (by simp) (by simp at hgt ⊢; omega)
    · simp only [storeResults, vecSet, if_neg hi]

/-- The state invariant of every stored chain: at least one filter, all its
blobs present, and `bloom_bytes` equal to the sum of their byte lengths. -/
def chainInvAt (env : Env) (st : KVStore) (ns : String) : Prop :=
  ∀ m, lookupMeta st ns = some m →
    1 ≤ m.n_filters ∧
    ∃ bfs, readBlobs st (bfKeyList env.slot ns m) = some bfs ∧
      m.bloom_bytes = (bfs.map List.length).sum

/-- The chain invariant over every user key. -/
def chainInv (env : Env) (st : KVStore) : Prop := ∀ ns, chainInvAt env st ns

/-- The store with no chains. -/
def emptyStore : KVStore := ⟨fun _ => none, fun _ => none⟩

/-- Stores reachable from the empty store by `Reserve` and `MAdd`
operations. -/
inductive ReachableStore (env : Env) : KVStore → Prop
  | empty : ReachableStore env emptyStore
  | reserve (st : KVStore) (ns : String) (cap : Nat) (er : ℚ) (expa ver : Nat) :
      ReachableStore env st →
      ReachableStore env (reserveOp env st ns cap er expa ver).2.1
  | madd (st : KVStore) (ns : String) (ver : Nat) (hs : List Nat) :
      ReachableStore env st →
      ReachableStore env (mAddOp env ver st ns hs).2.2.1

theorem bfKeyList_mem_ns (slot : Bool) (ns : String) (m : BloomChainMetadata)
    (k : InternalKey) (hk : k ∈ bfKeyList slot ns m) : k.ns_key = ns := by
  simp only [bfKeyList, List.mem_map] at hk
  obtain ⟨i, _, rfl⟩ := hk
  rfl

theorem createCommit_meta (env : Env) (st : KVStore) (ns : String) (er : ℚ)
    (cap expa ver : Nat) (n : String) :
    (commitBatch st (createBloomChainBatch env ns er cap expa ver).2).meta n =
      if n = ns then some (createBloomChainBatch env ns er cap expa ver).1
      else st.meta n := by
  simp [createBloomChainBatch, commitBatch, applyOp]

theorem createCommit_blobs (env : Env) (st : KVStore) (ns : String) (er : ℚ)
    (cap expa ver : Nat) (k : InternalKey) :
    (commitBatch st (createBloomChainBatch env ns er cap expa ver).2).blobs k =
      if k = getBFKey env.slot ns ver 0 then some (List.replicate (env.onob cap er) 0)
      else st.blobs k := by
  simp [createBloomChainBatch, commitBatch, applyOp]

theorem chainInv_create (env : Env) (st : KVStore) (ns : String) (er : ℚ)
    (cap expa ver : Nat) (hinv : chainInv env st) :
    chainInv env (commitBatch st (createBloomChainBatch env ns er cap expa ver).2) := by
  intro ns' m' hm'
  rw [lookupMeta, createCommit_meta] at hm'
  by_cases hns : ns' = ns
  · rw [if_pos hns] at hm'
    cases hm'
    refine ⟨le_refl 1, [List.replicate (env.onob cap er) 0], ?_, by simp [createBloomChainBatch]⟩
    have hkeys : bfKeyList env.slot ns' (createBloomChainBatch env ns er cap expa ver).1 =
        [getBFKey env.slot ns' ver 0] := by
      simp [bfKeyList, createBloomChainBatch, List.range_succ]
    rw [hkeys]
    simp only [readBlobs, createCommit_blobs]
    rw [hns, if_pos rfl]
  · rw [if_neg hns] at hm'
    obtain ⟨h1, bfs, hbfs, hbb⟩ := hinv ns' m' hm'
    refine ⟨h1, bfs, ?_, hbb⟩
    rw [← hbfs]
    apply readBlobs_congr
    intro k hk
    rw [createCommit_blobs, if_neg]
    intro hkk
    have : k.ns_key = ns' := bfKeyList_mem_ns env.slot ns' m' k hk
    rw [hkk] at this
    exact hns this.symm

theorem lookupMeta_create (env : Env) (st : KVStore) (ns : String) (er : ℚ)
    (cap expa ver : Nat) :
    lookupMeta (commitBatch st (createBloomChainBatch env ns er cap expa ver).2) ns =
      some (createBloomChainBatch env ns er cap expa ver).1 := by
  rw [lookupMeta, createCommit_meta, if_pos rfl]

/-- The single batch committed by the `MAdd` main path: the `"insert"` log
record, the entries staged during the loop, and — when `size` changed —
the final metadata and newest blob. -/
def mainBatchOf (env : Env) (ns : String) (m : BloomChainMetadata)
    (bfs0 : List (List Nat)) (hs : List Nat) : List BatchOp :=
  let stF := (mAddLoop env ns ⟨m, bfs0, bfKeyList env.slot ns m, []⟩ hs).1
  BatchOp.putLogData ["insert"] ::
    (stF.batch ++
      (if stF.md.size ≠ m.size
       then [BatchOp.putMeta ns stF.md,
             BatchOp.putBlob (stF.keys.getLastD dummyBFKey) (stF.bfs.getLastD [])]
       else []))

theorem mAddOp_eq_main (env : Env) (ver : Nat) (st : KVStore) (ns : String)
    (hs : List Nat) (m : BloomChainMetadata) (bfs0 : List (List Nat))
    (hm : lookupMeta st ns = some m)
    (hbfs : readBlobs st (bfKeyList env.slot ns m) = some bfs0) :
    mAddOp env ver st ns hs =
      (.ok, (mAddLoop env ns ⟨m, bfs0, bfKeyList env.slot ns m, []⟩ hs).2,
       commitBatch st (mainBatchOf env ns m bfs0 hs),
       [mainBatchOf env ns m bfs0 hs]) := by
  simp only [mAddOp, hm, hbfs, mainBatchOf, List.nil_append]

theorem readBlobs_after_create (env : Env) (st : KVStore) (ns : String) (er : ℚ)
    (cap expa ver : Nat) :
    readBlobs (commitBatch st (createBloomChainBatch env ns er cap expa ver).2)
      (bfKeyList env.slot ns (createBloomChainBatch env ns er cap expa ver).1) =
      some [List.replicate (env.onob cap er) 0] := by
  have hkeys : bfKeyList env.slot ns (createBloomChainBatch env ns er cap expa ver).1 =
      [getBFKey env.slot ns ver 0] := by
    simp [bfKeyList, createBloomChainBatch, List.range_succ]
  rw [hkeys]
  simp [readBlobs, createCommit_blobs]

theorem getD_range_map (f : Nat → InternalKey) (n i : Nat) (hi : i < n) :
    ((List.range n).map f).getD i dummyBFKey = f i := by
  rw [List.getD_eq_getElem?_getD, List.getElem?_map, List.getElem?_range hi]
  rfl

theorem getLastD_range_map (f : Nat → InternalKey) (n : Nat) (hn : 1 ≤ n) :
    ((List.range n).map f).getLastD dummyBFKey = f (n - 1) := by
  have hne : (List.range n).map f ≠ [] := by
    intro hemp
    have : ((List.range n).map f).length = 0 := by rw [hemp]; rfl
    simp at this
    omega
  rw [getLastD_eq_getD _ hne, List.length_map, List.length_range,
    getD_range_map f n (n - 1) (by omega)]

/-- The invariant maintained through the `MAdd` item loop: the constant
metadata fields, the agreement of `n_filters` with the working blob and key
lists, the `bloom_bytes` accounting, and — for every filter except the
newest — agreement of the store-after-staged-batch with the working blob
list.  `st1` is the store at loop entry, `m` the metadata read there and
`bfs0` the blobs read there. -/
structure MAddLoopInv (env : Env) (ns : String) (st1 : KVStore)
    (m : BloomChainMetadata) (bfs0 : List (List Nat)) (ls : LoopState) : Prop where
  hver : ls.md.version = m.version
  hbase : ls.md.base_capacity = m.base_capacity
  her : ls.md.error_rate = m.error_rate
  hexp : ls.md.expansion = m.expansion
  hn1 : 1 ≤ ls.md.n_filters
  hsz : m.size ≤ ls.md.size
  hlen : ls.bfs.length = ls.md.n_filters
  hkeys : ls.keys = (List.range ls.md.n_filters).map (getBFKey env.slot ns m.version)
  hbb : ls.md.bloom_bytes = (ls.bfs.map List.length).sum
  hsim : ∀ i, i + 1 < ls.md.n_filters →
    (commitBatch st1 ls.batch).blobs (getBFKey env.slot ns m.version i) =
      some (ls.bfs.getD i [])
  hfr : ∀ op ∈ ls.batch, opTouchesOnly ns op
  hinit : ls.md.size = m.size →
    ls = ⟨m, bfs0, (List.range m.n_filters).map (getBFKey env.slot ns m.version), []⟩

theorem maddLoopInv_init (env : Env) (ns : String) (st1 : KVStore)
    (m : BloomChainMetadata) (bfs0 : List (List Nat)) (hn1 : 1 ≤ m.n_filters)
    (hbfs : readBlobs st1 (bfKeyList env.slot ns m) = some bfs0)
    (hbb : m.bloom_bytes = (bfs0.map List.length).sum) :
    MAddLoopInv env ns st1 m bfs0 ⟨m, bfs0, bfKeyList env.slot ns m, []⟩ := by
  refine ⟨rfl, rfl, rfl, rfl, hn1, le_refl _, ?_, rfl, hbb, ?_, ?_, fun _ => rfl⟩
  · rw [readBlobs_length st1 _ _ hbfs, bfKeyList_length]
  · intro i hi
    have hi' : i + 1 < m.n_filters := hi
    have hmem := readBlobs_getD st1 _ _ hbfs i (by rw [bfKeyList_length]; omega)
    rw [bfKeyList_getD env.slot ns m i (by omega)] at hmem
    exact hmem
  · intro op hop
    cases hop

theorem maddLoopInv_step (env : Env) (ns : String) (st1 : KVStore)
    (m : BloomChainMetadata) (bfs0 : List (List Nat)) (ls : LoopState) (h : Nat)
    (hI : MAddLoopInv env ns st1 m bfs0 ls) :
    MAddLoopInv env ns st1 m bfs0 (mAddStep env ns ls h).1 := by
  have hbfs_ne : ls.bfs ≠ [] := by
    intro hemp
    have h0 : ls.bfs.length = 0 := by rw [hemp]; rfl
    rw [hI.hlen] at h0
    have h1 := hI.hn1
    omega
  by_cases hc : chainCheck ls.bfs h = true
  · rw [mAddStep_exist env ns ls h hc]
    exact hI
  · rw [Bool.not_eq_true] at hc
    by_cases hcap : ls.md.size + 1 > ls.md.getCapacity
    · by_cases hexp0 : ls.md.expansion = 0
      · rw [mAddStep_full env ns ls h hc hcap hexp0]
        exact hI
      · rw [mAddStep_grow env ns ls h hc hcap hexp0]
        have hlast_key : ls.keys.getLastD dummyBFKey =
            getBFKey env.slot ns m.version (ls.md.n_filters - 1) := by
          rw [hI.hkeys, getLastD_range_map _ _ hI.hn1]
        have hlast_bf : ls.bfs.getLastD [] = ls.bfs.getD (ls.md.n_filters - 1) [] := by
          rw [getLastD_eq_getD _ hbfs_ne, hI.hlen]
        have hne1 : ls.bfs ++ [(createBloomFilterInBatch env ns ls.md).2.1] ≠ [] := by
          simp
        refine ⟨?_, ?_, ?_, ?_, ?_, ?_, ?_, ?_, ?_, ?_, ?_, ?_⟩
        · simpa [createBloomFilterInBatch] using hI.hver
        · simpa [createBloomFilterInBatch] using hI.hbase
        · simpa [createBloomFilterInBatch] using hI.her
        · simpa [createBloomFilterInBatch] using hI.hexp
        · simp [createBloomFilterInBatch]
        · have := hI.hsz
          simp [createBloomFilterInBatch]
          omega
        · rw [setLast_length _ hne1]
          simp [createBloomFilterInBatch, hI.hlen]
        · simp only [createBloomFilterInBatch]
          rw [hI.hkeys, hI.hver]
          simp [List.range_succ]
        · rw [sum_lengths_setLast _ hne1 _ (fun b => insertHash_length b h)]
          simp [createBloomFilterInBatch, hI.hbb]
        · intro i hi
          have hi' : i < ls.md.n_filters := by
            simp only [createBloomFilterInBatch] at hi
            omega
          rw [commitBatch_append]
          have hstep1 : ∀ k, (commitBatch (commitBatch st1 ls.batch)
              [.putBlob (ls.keys.getLastD dummyBFKey) (ls.bfs.getLastD []),
               (createBloomFilterInBatch env ns ls.md).2.2]).blobs k =
              if k = ls.keys.getLastD dummyBFKey then some (ls.bfs.getLastD [])
              else (commitBatch st1 ls.batch).blobs k := by
            intro k
            simp [commitBatch, applyOp, createBloomFilterInBatch]
          rw [hstep1]
          have hrhs : (setLast (ls.bfs ++ [(createBloomFilterInBatch env ns ls.md).2.1])
              (fun b => insertHash b h)).getD i [] = ls.bfs.getD i [] := by
            rw [getD_setLast_of_lt _ _ i [] (by simp [hI.hlen]; omega),
              List.getD_append _ _ _ _ (by rw [hI.hlen]; exact hi')]
          rw [hrhs, hlast_key]
          by_cases hieq : i = ls.md.n_filters - 1
          · rw [if_pos (by rw [hieq]), hlast_bf, hieq]
          · rw [if_neg (fun hk => hieq (getBFKey_inj _ _ _ _ _ hk))]
            exact hI.hsim i (by omega)
        · intro op hop
          rw [List.mem_append] at hop
          cases hop with
          | inl hin => exact hI.hfr op hin
          | inr hin =>
            simp only [List.mem_cons, List.not_mem_nil, or_false] at hin
            cases hin with
            | inl hop1 =>
              rw [hop1, hlast_key]
              exact rfl
            | inr hop2 =>
              rw [hop2]
              simp [createBloomFilterInBatch, opTouchesOnly]
        · intro hszeq
          exfalso
          have := hI.hsz
          simp [createBloomFilterInBatch] at hszeq
          omega
    · rw [mAddStep_insert env ns ls h hc hcap]
      refine ⟨hI.hver, hI.hbase, hI.her, hI.hexp, hI.hn1, ?_, ?_, hI.hkeys, ?_, ?_,
        hI.hfr, ?_⟩
      · exact le_trans hI.hsz (Nat.le_succ _)
      · rw [setLast_length _ hbfs_ne]
        exact hI.hlen
      · rw [sum_lengths_setLast _ hbfs_ne _ (fun b => insertHash_length b h)]
        exact hI.hbb
      · intro i hi
        rw [getD_setLast_of_lt _ _ i [] (by rw [hI.hlen]; exact hi)]
        exact hI.hsim i hi
      · intro hszeq
        exfalso
        have := hI.hsz
        simp at hszeq
        omega

theorem maddLoopInv_loop (env : Env) (ns : String) (st1 : KVStore)
    (m : BloomChainMetadata) (bfs0 : List (List Nat)) (ls : LoopState) (hs : List Nat)
    (hI : MAddLoopInv env ns st1 m bfs0 ls) :
    MAddLoopInv env ns st1 m bfs0 (mAddLoop env ns ls hs).1 := by
  induction hs generalizing ls with
  | nil => exact hI
  | cons h hs ih =>
    simp only [mAddLoop]
    exact ih _ (maddLoopInv_step env ns st1 m bfs0 ls h hI)

theorem chainInv_commit_final (env : Env) (ns : String) (st1 : KVStore)
    (m : BloomChainMetadata) (bfs0 : List (List Nat)) (lsF : LoopState)
    (hIF : MAddLoopInv env ns st1 m bfs0 lsF) (hinv : chainInv env st1) :
    chainInv env (commitBatch st1 (.putLogData ["insert"] ::
      (lsF.batch ++ [.putMeta ns lsF.md,
        .putBlob (lsF.keys.getLastD dummyBFKey) (lsF.bfs.getLastD [])]))) := by
  have hbfs_ne : lsF.bfs ≠ [] := by
    intro hemp
    have h0 : lsF.bfs.length = 0 := by rw [hemp]; rfl
    rw [hIF.hlen] at h0
    have h1 := hIF.hn1
    omega
  have hkey_last : lsF.keys.getLastD dummyBFKey =
      getBFKey env.slot ns m.version (lsF.md.n_filters - 1) := by
    rw [hIF.hkeys, getLastD_range_map _ _ hIF.hn1]
  have hbf_last : lsF.bfs.getLastD [] = lsF.bfs.getD (lsF.md.n_filters - 1) [] := by
    rw [getLastD_eq_getD _ hbfs_ne, hIF.hlen]
  have hsplit : commitBatch st1 (.putLogData ["insert"] ::
      (lsF.batch ++ [.putMeta ns lsF.md,
        .putBlob (lsF.keys.getLastD dummyBFKey) (lsF.bfs.getLastD [])])) =
      applyOp (applyOp (commitBatch st1 lsF.batch) (.putMeta ns lsF.md))
        (.putBlob (lsF.keys.getLastD dummyBFKey) (lsF.bfs.getLastD [])) := by
    rw [commitBatch_cons]
    rw [show applyOp st1 (.putLogData ["insert"]) = st1 from rfl]
    rw [commitBatch_append]
    rfl
  intro ns'
  by_cases hns : ns' = ns
  · subst hns
    intro m' hm'
    rw [lookupMeta, hsplit, applyOp_putBlob_meta, applyOp_putMeta_meta, if_pos rfl] at hm'
    cases hm'
    refine ⟨hIF.hn1, lsF.bfs, ?_, hIF.hbb⟩
    apply readBlobs_of_getD
    · rw [hIF.hlen, bfKeyList_length]
    · intro i hi
      rw [bfKeyList_length] at hi
      rw [bfKeyList_getD env.slot ns' lsF.md i hi, hIF.hver, hsplit,
        applyOp_putBlob_blobs, hkey_last]
      by_cases hieq : i = lsF.md.n_filters - 1
      · rw [if_pos (by rw [hieq]), hbf_last, hieq]
      · rw [if_neg (fun hk => hieq (getBFKey_inj _ _ _ _ _ hk)),
          applyOp_putMeta_blobs]
        have h1 := hIF.hn1
        exact hIF.hsim i (by omega)
  · intro m' hm'
    have hfr2 : ∀ op ∈ lsF.batch, opTouchesOnly ns op := hIF.hfr
    rw [lookupMeta, hsplit, applyOp_putBlob_meta, applyOp_putMeta_meta,
      if_neg hns, commitBatch_meta_frame st1 lsF.batch ns hfr2 ns' hns] at hm'
    obtain ⟨h1, bfs, hbfs, hbb⟩ := hinv ns' m' hm'
    refine ⟨h1, bfs, ?_, hbb⟩
    rw [← hbfs]
    apply readBlobs_congr
    intro k hk
    have hkns : k.ns_key = ns' := bfKeyList_mem_ns env.slot ns' m' k hk
    rw [hsplit, applyOp_putBlob_blobs, if_neg, applyOp_putMeta_blobs,
      commitBatch_blobs_frame st1 lsF.batch ns hfr2 k (by rw [hkns]; exact hns)]
    intro hkk
    have : k.ns_key = ns := by rw [hkk, hkey_last]; rfl
    rw [hkns] at this
    exact hns this

theorem chainInv_mainCommit (env : Env) (ns : String) (st1 : KVStore)
    (m : BloomChainMetadata) (bfs0 : List (List Nat)) (hs : List Nat)
    (hn1 : 1 ≤ m.n_filters)
    (hbfs : readBlobs st1 (bfKeyList env.slot ns m) = some bfs0)
    (hbb : m.bloom_bytes = (bfs0.map List.length).sum)
    (hinv : chainInv env st1) :
    chainInv env (commitBatch st1 (mainBatchOf env ns m bfs0 hs)) := by
  have hIF := maddLoopInv_loop env ns st1 m bfs0 _ hs
    (maddLoopInv_init env ns st1 m bfs0 hn1 hbfs hbb)
  by_cases hsz : (mAddLoop env ns ⟨m, bfs0, bfKeyList env.slot ns m, []⟩ hs).1.md.size = m.size
  · have hini := hIF.hinit hsz
    have hmb : mainBatchOf env ns m bfs0 hs = [.putLogData ["insert"]] := by
      simp only [mainBatchOf]
      rw [hini]
      simp
    rw [hmb]
    exact hinv
  · have hmb : mainBatchOf env ns m bfs0 hs =
        .putLogData ["insert"] ::
          ((mAddLoop env ns ⟨m, bfs0, bfKeyList env.slot ns m, []⟩ hs).1.batch ++
           [.putMeta ns (mAddLoop env ns ⟨m, bfs0, bfKeyList env.slot ns m, []⟩ hs).1.md,
            .putBlob ((mAddLoop env ns ⟨m, bfs0, bfKeyList env.slot ns m, []⟩
                hs).1.keys.getLastD dummyBFKey)
              ((mAddLoop env ns ⟨m, bfs0, bfKeyList env.slot ns m, []⟩
                hs).1.bfs.getLastD [])]) := by
      simp only [mainBatchOf]
      rw [if_pos hsz]
    rw [hmb]
    exact chainInv_commit_final env ns st1 m bfs0 _ hIF hinv

theorem chainInv_reserveOp (env : Env) (st : KVStore) (ns : String) (cap : Nat)
    (er : ℚ) (expa ver : Nat) (hinv : chainInv env st) :
    chainInv env (reserveOp env st ns cap er expa ver).2.1 := by
  cases hm : lookupMeta st ns with
  | some m0 => simp only [reserveOp, hm]; exact hinv
  | none =>
    simp only [reserveOp, hm]
    exact chainInv_create env st ns er cap expa ver hinv

theorem chainInv_mAddOp (env : Env) (ver : Nat) (st : KVStore) (ns : String)
    (hs : List Nat) (hinv : chainInv env st) :
    chainInv env (mAddOp env ver st ns hs).2.2.1 := by
  cases hm : lookupMeta st ns with
  | some m =>
    obtain ⟨hn1, bfs0, hbfs, hbb⟩ := hinv ns m hm
    rw [mAddOp_eq_main env ver st ns hs m bfs0 hm hbfs]
    exact chainInv_mainCommit env ns st m bfs0 hs hn1 hbfs hbb hinv
  | none =>
    have hinv1 := chainInv_create env st ns kBFDefaultErrorRate kBFDefaultInitCapacity
      kBFDefaultExpansion ver hinv
    have hm1 := lookupMeta_create env st ns kBFDefaultErrorRate kBFDefaultInitCapacity
      kBFDefaultExpansion ver
    obtain ⟨hn1, bfs0, hbfs, hbb⟩ :=
      hinv1 ns (createBloomChainBatch env ns kBFDefaultErrorRate kBFDefaultInitCapacity
        kBFDefaultExpansion ver).1 hm1
    simp only [mAddOp, hm]
    rw [hbfs]
    exact chainInv_mainCommit env ns _ _ bfs0 hs hn1 hbfs hbb hinv1

/-- A concrete environment for witnesses: a constant sizing function and no
slot-id encoding. -/
def envX : Env := ⟨fun _ _ => 32, false⟩

/-- A concrete chain metadata record: one filter, one inserted item. -/
def mX : BloomChainMetadata := ⟨7, 1 / 100, 100, 2, 1, 1, 32⟩

/-- A concrete store holding `mX` under key "k" with an all-ones blob, so
every probe hits. -/
def stX : KVStore :=
  ⟨fun n => if n = "k" then some mX else none,
   fun k => if k = getBFKey false "k" 7 0 then some (List.replicate 32 255) else none⟩

/-- A concrete chain metadata record: one filter, nothing inserted. -/
def mZ : BloomChainMetadata := ⟨7, 1 / 100, 100, 2, 1, 0, 32⟩

/-- A concrete store holding `mZ` under key "k" with an all-zero blob, so
every probe misses. -/
def stZ : KVStore :=
  ⟨fun n => if n = "k" then some mZ else none,
   fun k => if k = getBFKey false "k" 7 0 then some (List.replicate 32 0) else none⟩

/-- A concrete full chain: `base_capacity = 2`, `expansion = 2`, one filter,
`size = 2`, so the next miss must append. -/
def mF : BloomChainMetadata := ⟨7, 1 / 100, 2, 2, 1, 2, 32⟩

/-- Loop state at entry for the `mF` chain with its zero blob. -/
def lsF0 : LoopState := ⟨mF, [List.replicate 32 0], [getBFKey false "k" 7 0], []⟩

/-- The working state at entry of the `MAdd` item loop. -/
def mAddEntryState (env : Env) (ns : String) (m : BloomChainMetadata)
    (bfs0 : List (List Nat)) : LoopState :=
  ⟨m, bfs0, bfKeyList env.slot ns m, []⟩

/-- C8: for every chain state reachable by any sequence of `Reserve` and
`MAdd` operations, every stored chain has at least one filter, all
`n_filters` blobs are present, and `bloom_bytes` equals the sum of the byte
lengths of those blobs; established by chain creation and preserved by
every filter append. -/
theorem chain_bloom_bytes_invariant (env : Env) (st : KVStore)
    (hr : ReachableStore env st) : chainInv env st := by
  induction hr with
  | empty =>
    intro ns m hm
    exact absurd hm (by simp [lookupMeta, emptyStore])
  | reserve st ns cap er expa ver _ ih =>
    exact chainInv_reserveOp env st ns cap er expa ver ih
  | madd st ns ver hs _ ih =>
    exact chainInv_mAddOp env ver st ns hs ih

/-- C8 witness: the invariant holds of the concrete store obtained by one
`Reserve` on the empty store. -/
theorem chain_bloom_bytes_invariant_witness :
    chainInv envX (reserveOp envX emptyStore "k" 2 (1 / 100) 2 0).2.1 :=
  chain_bloom_bytes_invariant envX (reserveOp envX emptyStore "k" 2 (1 / 100) 2 0).2.1
    (ReachableStore.reserve emptyStore "k" 2 (1 / 100) 2 0 ReachableStore.empty)

/-- C1: for every `MAdd` call on a readable chain there is one result per
input item, in input order; for each item the probe (newest to oldest,
short-circuiting) decides the outcome: a hit yields `Exists` and no state
change, a miss at capacity with `expansion = 0` yields `Full` and no state
change, and otherwise the hash is inserted into the newest filter, the
result is `Ok`, and `size` is incremented by exactly one. -/
theorem mAdd_per_item_results (env : Env) (ver : Nat) (st : KVStore) (ns : String)
    (hs : List Nat) (m : BloomChainMetadata) (bfs0 : List (List Nat))
    (hm : lookupMeta st ns = some m)
    (hbfs : readBlobs st (bfKeyList env.slot ns m) = some bfs0) :
    ((mAddOp env ver st ns hs).2.1).length = hs.length ∧
    (∀ i, i < hs.length →
      (mAddOp env ver st ns hs).2.1.getD i .ok =
        (mAddStep env ns (loopStateAt env ns (mAddEntryState env ns m bfs0) hs i)
          (hs.getD i 0)).2 ∧
      loopStateAt env ns (mAddEntryState env ns m bfs0) hs (i + 1) =
        (mAddStep env ns (loopStateAt env ns (mAddEntryState env ns m bfs0) hs i)
          (hs.getD i 0)).1) ∧
    (∀ ls : LoopState, ∀ h : Nat,
      (chainCheck ls.bfs h = true → mAddStep env ns ls h = (ls, .exist)) ∧
      (chainCheck ls.bfs h = false → ls.md.size + 1 > ls.md.getCapacity →
        ls.md.expansion = 0 → mAddStep env ns ls h = (ls, .full)) ∧
      (chainCheck ls.bfs h = false →
        ¬(ls.md.size + 1 > ls.md.getCapacity ∧ ls.md.expansion = 0) →
        (mAddStep env ns ls h).2 = .ok ∧
        (mAddStep env ns ls h).1.md.size = ls.md.size + 1 ∧
        (mAddStep env ns ls h).1.bfs.getLastD [] =
          insertHash (if ls.md.size + 1 > ls.md.getCapacity
            then (createBloomFilterInBatch env ns ls.md).2.1
            else ls.bfs.getLastD []) h)) := by
  refine ⟨?_, ?_, ?_⟩
  · rw [mAddOp_eq_main env ver st ns hs m bfs0 hm hbfs]
    exact mAddLoop_length env ns _ hs
  · intro i hi
    rw [mAddOp_eq_main env ver st ns hs m bfs0 hm hbfs]
    exact ⟨mAddLoop_result_getD env ns _ hs i hi .ok, loopStateAt_succ env ns _ hs i hi⟩
  · intro ls h
    refine ⟨fun hc => mAddStep_exist env ns ls h hc,
      fun hc hcap hexp => mAddStep_full env ns ls h hc hcap hexp,
      fun hc hno => ?_⟩
    by_cases hcap : ls.md.size + 1 > ls.md.getCapacity
    · have hexp : ls.md.expansion ≠ 0 := fun he => hno ⟨hcap, he⟩
      rw [mAddStep_grow env ns ls h hc hcap hexp]
      refine ⟨rfl, rfl, ?_⟩
      rw [if_pos hcap]
      show (setLast (ls.bfs ++ [(createBloomFilterInBatch env ns ls.md).2.1])
        (fun b => insertHash b h)).getLastD [] = _
      rw [getLastD_setLast, getLastD_append_single]
    · rw [mAddStep_insert env ns ls h hc hcap]
      refine ⟨rfl, rfl, ?_⟩
      rw [if_neg hcap]
      show (setLast ls.bfs (fun b => insertHash b h)).getLastD [] = _
      rw [getLastD_setLast]

/-- C1 witness: a fresh item against the concrete empty chain produces one
result, namely `Ok`. -/
theorem mAdd_per_item_results_witness :
    ((mAddOp envX 0 stZ "k" [5]).2.1).length = 1 ∧
    (mAddOp envX 0 stZ "k" [5]).2.1.getD 0 .ok = .ok := by
  have H := mAdd_per_item_results envX 0 stZ "k" [5] mZ [List.replicate 32 0] rfl rfl
  refine ⟨H.1, ?_⟩
  rw [(H.2.1 0 (by decide)).1]
  decide

/-- C2: when an item misses all filters, `size + 1` exceeds the capacity
and `expansion > 0`, exactly one filter is appended: its byte size is the
sizing function applied to `base_capacity * expansion ^ n_filters` with the
pre-append `n_filters`, it is created all-zero (receiving only this item's
insert), `n_filters` grows by one, the size is added to `bloom_bytes`, and
the previously newest blob is staged into the batch before the append's
metadata entry. -/
theorem mAdd_append_filter (env : Env) (ns : String) (ls : LoopState) (h : Nat)
    (hc : chainCheck ls.bfs h = false)
    (hcap : ls.md.size + 1 > ls.md.getCapacity)
    (hexp : 0 < ls.md.expansion) :
    (mAddStep env ns ls h).2 = .ok ∧
    (mAddStep env ns ls h).1.bfs.length = ls.bfs.length + 1 ∧
    (mAddStep env ns ls h).1.md.n_filters = ls.md.n_filters + 1 ∧
    (mAddStep env ns ls h).1.md.bloom_bytes = ls.md.bloom_bytes +
      env.onob (ls.md.base_capacity * ls.md.expansion ^ ls.md.n_filters) ls.md.error_rate ∧
    ((mAddStep env ns ls h).1.bfs.getLastD []).length =
      env.onob (ls.md.base_capacity * ls.md.expansion ^ ls.md.n_filters) ls.md.error_rate ∧
    (mAddStep env ns ls h).1.bfs.getLastD [] =
      insertHash (List.replicate
        (env.onob (ls.md.base_capacity * ls.md.expansion ^ ls.md.n_filters) ls.md.error_rate)
        0) h ∧
    (mAddStep env ns ls h).1.batch = ls.batch ++
      [.putBlob (ls.keys.getLastD dummyBFKey) (ls.bfs.getLastD []),
       .putMeta ns (createBloomFilterInBatch env ns ls.md).1] := by
  have hexp' : ls.md.expansion ≠ 0 := by omega
  rw [mAddStep_grow env ns ls h hc hcap hexp']
  have hlast : (setLast (ls.bfs ++ [(createBloomFilterInBatch env ns ls.md).2.1])
      (fun b => insertHash b h)).getLastD [] =
      insertHash (createBloomFilterInBatch env ns ls.md).2.1 h := by
    rw [getLastD_setLast, getLastD_append_single]
  refine ⟨rfl, ?_, ?_, ?_, ?_, ?_, ?_⟩
  · show (setLast (ls.bfs ++ [(createBloomFilterInBatch env ns ls.md).2.1])
      (fun b => insertHash b h)).length = _
    rw [setLast_length _ (by simp)]
    simp
  · simp [createBloomFilterInBatch]
  · simp [createBloomFilterInBatch]
  · show ((setLast (ls.bfs ++ [(createBloomFilterInBatch env ns ls.md).2.1])
      (fun b => insertHash b h)).getLastD []).length = _
    rw [hlast, insertHash_length]
    simp [createBloomFilterInBatch]
  · show (setLast (ls.bfs ++ [(createBloomFilterInBatch env ns ls.md).2.1])
      (fun b => insertHash b h)).getLastD [] = _
    rw [hlast]
    simp [createBloomFilterInBatch]
  · simp [createBloomFilterInBatch]

/-- C2 witness: the concrete full chain `mF` appends a 32-byte filter on a
missing item, doubling the blob count and growing `bloom_bytes` to 64. -/
theorem mAdd_append_filter_witness :
    (mAddStep envX "k" lsF0 1).2 = .ok ∧
    (mAddStep envX "k" lsF0 1).1.bfs.length = 2 ∧
    (mAddStep envX "k" lsF0 1).1.md.n_filters = 2 ∧
    (mAddStep envX "k" lsF0 1).1.md.bloom_bytes = 64 := by
  have H := mAdd_append_filter envX "k" lsF0 1 (by decide) (by decide) (by decide)
  refine ⟨H.1, ?_, ?_, ?_⟩
  · rw [H.2.1]
    decide
  · rw [H.2.2.1]
    decide
  · rw [H.2.2.2.1]
    decide

/-- C3 (amended): an `MAdd` on an existing chain in which every item's
result is `Exists` stages no metadata or blob write and leaves the stored
state unchanged; the single committed batch carries only the `"insert"`
log record. -/
theorem mAdd_all_exist_no_state_change (env : Env) (ver : Nat) (st : KVStore)
    (ns : String) (hs : List Nat) (m : BloomChainMetadata) (bfs0 : List (List Nat))
    (hm : lookupMeta st ns = some m)
    (hbfs : readBlobs st (bfKeyList env.slot ns m) = some bfs0)
    (hall : ∀ r ∈ (mAddOp env ver st ns hs).2.1, r = .exist) :
    (mAddOp env ver st ns hs).2.2.1 = st ∧
    (mAddOp env ver st ns hs).2.2.2 = [[.putLogData ["insert"]]] := by
  rw [mAddOp_eq_main env ver st ns hs m bfs0 hm hbfs] at hall ⊢
  have hstate := mAddLoop_state_all_exist env ns ⟨m, bfs0, bfKeyList env.slot ns m, []⟩ hs hall
  have hmb : mainBatchOf env ns m bfs0 hs = [.putLogData ["insert"]] := by
    simp only [mainBatchOf]
    rw [hstate]
    simp
  rw [hmb]
  exact ⟨rfl, rfl⟩

/-- C3 witness: on the concrete all-ones chain every probe hits, the store
is returned unchanged and the committed batch is just the log record. -/
theorem mAdd_all_exist_no_state_change_witness :
    (mAddOp envX 0 stX "k" [0]).2.2.1 = stX ∧
    (mAddOp envX 0 stX "k" [0]).2.2.2 = [[.putLogData ["insert"]]] :=
  mAdd_all_exist_no_state_change envX 0 stX "k" [0] mX [List.replicate 32 255]
    rfl rfl (by decide)

/-- C3 counterexample: even when every item's result is `Exists`, `MAdd`
still commits a batch, and that batch carries the `"insert"` write-ahead
log record — the claim's "no batch write is issued" and "no insert
write-ahead-log entry is committed" fail on the code. -/
theorem mAdd_all_exist_still_commits :
    (mAddOp envX 0 stX "k" [0]).2.1 = [.exist] ∧
    (mAddOp envX 0 stX "k" [0]).2.2.2 ≠ [] ∧
    (mAddOp envX 0 stX "k" [0]).2.2.2 = [[.putLogData ["insert"]]] := by decide

/-- C4 (amended): each committed batch is applied in full, and the final
store is the fold of the committed batches; `Reserve` commits at most one
batch, and `MAdd` commits at most one batch when the key already exists,
but up to two — the default chain creation, then the insert batch — when
it auto-creates, so a state with the creation applied and the inserts not
yet applied is reachable between the two commits. -/
theorem op_commit_structure (env : Env) (ver : Nat) (st : KVStore) (ns : String)
    (hs : List Nat) (cap : Nat) (er : ℚ) (expa : Nat) :
    ((reserveOp env st ns cap er expa ver).2.2).length ≤ 1 ∧
    (reserveOp env st ns cap er expa ver).2.1 =
      ((reserveOp env st ns cap er expa ver).2.2).foldl commitBatch st ∧
    ((mAddOp env ver st ns hs).2.2.2).length ≤ 2 ∧
    (lookupMeta st ns ≠ none → ((mAddOp env ver st ns hs).2.2.2).length ≤ 1) ∧
    (mAddOp env ver st ns hs).2.2.1 =
      ((mAddOp env ver st ns hs).2.2.2).foldl commitBatch st := by
  refine ⟨?_, ?_, ?_, ?_, ?_⟩
  · cases hm : lookupMeta st ns with
    | some m0 => simp [reserveOp, hm]
    | none => simp [reserveOp, hm]
  · cases hm : lookupMeta st ns with
    | some m0 => simp [reserveOp, hm]
    | none => simp [reserveOp, hm]
  · cases hm : lookupMeta st ns with
    | some m =>
      cases hrb : readBlobs st (bfKeyList env.slot ns m) with
      | none => simp [mAddOp, hm, hrb]
      | some bfs0 => simp [mAddOp, hm, hrb]
    | none =>
      cases hrb : readBlobs
          (commitBatch st (createBloomChainBatch env ns kBFDefaultErrorRate
            kBFDefaultInitCapacity kBFDefaultExpansion ver).2)
          (bfKeyList env.slot ns (createBloomChainBatch env ns kBFDefaultErrorRate
            kBFDefaultInitCapacity kBFDefaultExpansion ver).1) with
      | none => simp [mAddOp, hm, hrb]
      | some bfs0 => simp [mAddOp, hm, hrb]
  · intro hne
    cases hm : lookupMeta st ns with
    | some m =>
      cases hrb : readBlobs st (bfKeyList env.slot ns m) with
      | none => simp [mAddOp, hm, hrb]
      | some bfs0 => simp [mAddOp, hm, hrb]
    | none => exact absurd hm hne
  · cases hm : lookupMeta st ns with
    | some m =>
      cases hrb : readBlobs st (bfKeyList env.slot ns m) with
      | none => simp [mAddOp, hm, hrb]
      | some bfs0 => simp [mAddOp, hm, hrb]
    | none =>
      cases hrb : readBlobs
          (commitBatch st (createBloomChainBatch env ns kBFDefaultErrorRate
            kBFDefaultInitCapacity kBFDefaultExpansion ver).2)
          (bfKeyList env.slot ns (createBloomChainBatch env ns kBFDefaultErrorRate
            kBFDefaultInitCapacity kBFDefaultExpansion ver).1) with
      | none => simp [mAddOp, hm, hrb]
      | some bfs0 => simp [mAddOp, hm, hrb, commitBatch_append]

/-- C4 witness: on a store whose key exists, `MAdd` commits a single
batch. -/
theorem op_commit_structure_witness :
    ((mAddOp envX 0 stX "k" [0]).2.2.2).length ≤ 1 := by
  have H := op_commit_structure envX 0 stX "k" [0] 100 (1 / 100) 2
  exact H.2.2.2.1 (by simp [lookupMeta, stX])

/-- C4 counterexample: `MAdd` on an absent key performs two separate
commits; after the first commit alone the store holds the freshly created
default chain with `size = 0` while the operation's inserts are not yet
applied — a stored state in which only part of the single operation's
writes has been applied. -/
theorem mAdd_autocreate_two_commits :
    lookupMeta emptyStore "k" = none ∧
    ((mAddOp envX 0 emptyStore "k" [5]).2.2.2).length = 2 ∧
    (lookupMeta (commitBatch emptyStore
        (((mAddOp envX 0 emptyStore "k" [5]).2.2.2).getD 0 [])) "k").map
      (fun m => m.size) = some 0 ∧
    (lookupMeta (mAddOp envX 0 emptyStore "k" [5]).2.2.1 "k").map
      (fun m => m.size) = some 1 := by decide

/-- C5 (amended): `Reserve` performs no validation of `capacity` or
`error_rate`: on an absent key it succeeds for any argument values and
creates the one-filter chain recording exactly those arguments. -/
theorem reserve_no_validation (env : Env) (st : KVStore) (ns : String) (cap : Nat)
    (er : ℚ) (expa ver : Nat) (hnone : lookupMeta st ns = none) :
    (reserveOp env st ns cap er expa ver).1 = .ok ∧
    lookupMeta (reserveOp env st ns cap er expa ver).2.1 ns =
      some ⟨ver, er, cap, expa, 1, 0, env.onob cap er⟩ := by
  have h1 : (reserveOp env st ns cap er expa ver).1 = .ok := by
    simp [reserveOp, hnone]
  have h2 : lookupMeta (reserveOp env st ns cap er expa ver).2.1 ns =
      some (createBloomChainBatch env ns er cap expa ver).1 := by
    simp only [reserveOp, hnone]
    exact lookupMeta_create env st ns er cap expa ver
  refine ⟨h1, ?_⟩
  rw [h2]
  rfl

/-- C5 witness: `Reserve` with `error_rate = 2` and `capacity = 0` — both
invalid per the specification — succeeds and creates the chain. -/
theorem reserve_no_validation_witness :
    (reserveOp envX emptyStore "k" 0 2 2 0).1 = .ok ∧
    lookupMeta (reserveOp envX emptyStore "k" 0 2 2 0).2.1 "k" =
      some ⟨0, 2, 0, 2, 1, 0, 32⟩ :=
  reserve_no_validation envX emptyStore "k" 0 2 2 0 rfl

/-- C5 counterexample: with `error_rate = 2` outside `(0, 1)` and
`capacity = 0 < 1`, `Reserve` does not fail with `InvalidArgument`: it
returns `Ok` and a chain is created. -/
theorem reserve_accepts_invalid_args :
    (¬(0 < (2 : ℚ) ∧ (2 : ℚ) < 1) ∧ (0 : Nat) < 1) ∧
    (reserveOp envX emptyStore "k" 0 2 2 0).1 = .ok ∧
    (lookupMeta (reserveOp envX emptyStore "k" 0 2 2 0).2.1 "k").isSome = true := by
  refine ⟨⟨?_, by decide⟩, by decide, by rfl⟩
  rintro ⟨-, h2⟩
  exact absurd h2 (by norm_num)

/-- C6: for every filter index `i` in `[0, n_filters)` (a 16-bit index in
the source), the KV key of blob `i` is the canonical internal-key encoding
of the namespaced key, the big-endian two-byte encoding `u16be i` as
sub-key, and the metadata version, together with the engine's slot flag. -/
theorem blob_key_encoding (slot : Bool) (ns : String) (m : BloomChainMetadata)
    (i : Nat) (hi : i < m.n_filters) (hu : i < 65536) :
    (bfKeyList slot ns m).getD i dummyBFKey =
      InternalKey.mk ns (u16be i) m.version slot := by
  rw [bfKeyList_getD slot ns m i hi]
  show InternalKey.mk ns [i / 256, i % 256] m.version slot = _
  have hdig : [i / 256, i % 256] = u16be i := by
    simp only [u16be, List.cons.injEq, and_true, and_self]
    omega
  rw [hdig]

/-- C6 witness: blob key 300 of a 400-filter chain carries the big-endian
sub-key bytes `[1, 44]`. -/
theorem blob_key_encoding_witness :
    (bfKeyList false "k" ⟨7, 2, 100, 2, 400, 0, 0⟩).getD 300 dummyBFKey =
      InternalKey.mk "k" [1, 44] 7 false := by
  have H := blob_key_encoding false "k" ⟨7, 2, 100, 2, 400, 0, 0⟩ 300
    (by decide) (by decide)
  rw [H]
  rfl

/-- C7: `Reserve` on a key whose metadata exists fails with the
already-exists `InvalidArgument` error, returns the store unchanged, and
commits nothing. -/
theorem reserve_existing_key (env : Env) (st : KVStore) (ns : String) (cap : Nat)
    (er : ℚ) (expa ver : Nat) (m : BloomChainMetadata)
    (hm : lookupMeta st ns = some m) :
    reserveOp env st ns cap er expa ver =
      (.invalidArgument "the key already exists", st, []) := by
  simp only [reserveOp, hm]

/-- C7 witness: a duplicate `Reserve` against the concrete store `stX` is
rejected and `stX` is returned untouched. -/
theorem reserve_existing_key_witness :
    reserveOp envX stX "k" 100 (1 / 100) 2 9 =
      (.invalidArgument "the key already exists", stX, []) :=
  reserve_existing_key envX stX "k" 100 (1 / 100) 2 9 mX rfl

/-- C9: `MExists` on a key with no metadata is not an error: it returns
`Ok`, fills the caller's vector with `false`, and commits nothing. -/
theorem mExists_missing_key (env : Env) (st : KVStore) (ns : String)
    (hs : List Nat) (out0 : List Bool) (hnone : lookupMeta st ns = none) :
    mExistsOp env st ns hs out0 =
      (.ok, some (List.replicate out0.length false), []) := by
  simp only [mExistsOp, hnone]

/-- C9 witness: two lookups against an absent key yield `Ok` and
`[false, false]`. -/
theorem mExists_missing_key_witness :
    mExistsOp envX emptyStore "k" [1, 2] [true, true] =
      (.ok, some [false, false], []) :=
  mExists_missing_key envX emptyStore "k" [1, 2] [true, true] rfl

/-- C10: `MAdd` and `MExists` store one result per item by position into
the caller-supplied vector without resizing it: when the vector has at
least `items.size()` entries every positional store is in bounds, and with
a shorter vector the store at index `i = length` is out of bounds (modelled
as `none`). -/
theorem result_vector_bounds (env : Env) (ver : Nat) (st : KVStore) (ns : String)
    (hs : List Nat) (m : BloomChainMetadata) (bfs0 : List (List Nat))
    (rets0 : List AddResult) (out0 : List Bool)
    (hm : lookupMeta st ns = some m)
    (hbfs : readBlobs st (bfKeyList env.slot ns m) = some bfs0) :
    (hs.length ≤ rets0.length → (mAddOpVec env ver st ns hs rets0).isSome = true) ∧
    (rets0.length < hs.length → mAddOpVec env ver st ns hs rets0 = none) ∧
    (hs.length ≤ out0.length → ((mExistsOp env st ns hs out0).2.1).isSome = true) ∧
    (out0.length < hs.length → (mExistsOp env st ns hs out0).2.1 = none) := by
  have hlen : ((mAddOp env ver st ns hs).2.1).length = hs.length := by
    rw [mAddOp_eq_main env ver st ns hs m bfs0 hm hbfs]
    exact mAddLoop_length env ns _ hs
  refine ⟨?_, ?_, ?_, ?_⟩
  · intro hge
    exact storeResults_isSome rets0 0 _ (by rw [hlen]; omega)
  · intro hlt
    refine storeResults_none rets0 0 _ ?_ (by rw [hlen]; omega)
    intro hemp
    have h0 : ((mAddOp env ver st ns hs).2.1).length = 0 := by rw [hemp]; rfl
    rw [hlen] at h0
    omega
  · intro hge
    simp only [mExistsOp, hm, hbfs]
    exact storeResults_isSome out0 0 _ (by simp; omega)
  · intro hlt
    simp only [mExistsOp, hm, hbfs]
    have hxs : hs.map (chainCheck bfs0) ≠ [] := by
      intro hemp
      have h0 : (hs.map (chainCheck bfs0)).length = 0 := by rw [hemp]; rfl
      simp at h0
      rw [h0] at hlt
      simp at hlt
    exact storeResults_none out0 0 _ hxs (by simp; omega)

/-- C10 witness: with two items, a one-slot result vector is out of bounds
for `MAdd`, while a two-slot vector is in bounds for `MExists`. -/
theorem result_vector_bounds_witness :
    mAddOpVec envX 0 stX "k" [1, 2] [.ok] = none ∧
    ((mExistsOp envX stX "k" [1, 2] [false, false]).2.1).isSome = true := by
  have H := result_vector_bounds envX 0 stX "k" [1, 2] mX [List.replicate 32 255]
    [.ok] [false, false] rfl rfl
  exact ⟨H.2.1 (by decide), H.2.2.1 (by decide)⟩
